import Mathlib

/-!
Shallow embedding of the Mutation-Rate-Calculator repository.

Source files embedded here:
- `src/mut_calc/mutation.py` : `compute_mutation_rate`
- `src/mut_calc/fasta.py`    : `read_fasta`

Python strings are modelled as `List Char` so that every operation is a
structural recursion the kernel can evaluate; string literals enter through
`String.data`.  The Python `float` mutation rate is modelled as `ℚ`: the
division `mutations / comparable` is exact real-valued division.  A raised
`ValueError` is modelled as `Except.error` carrying the message string.
The Python `dict` is modelled as an association list where assignment to an
existing key overwrites the value in place and assignment to a fresh key
appends, matching insertion-ordered `dict` semantics.
-/

deriving instance DecidableEq for Except

namespace MutCalc

/-- Loop body of `compute_mutation_rate` (src/mut_calc/mutation.py lines 37-42):
a forward pass over the zipped character pairs carrying the accumulator
`(mutations, comparable)`.  A position is skipped when `exclude_gaps` is set
and either character is the gap `'-'`; otherwise `comparable` is incremented
and, when the characters differ, `mutations` as well. -/
def countLoop (exclude_gaps : Bool) : List (Char × Char) → Nat × Nat → Nat × Nat
  | [], acc => acc
  | p :: rest, acc =>
    if exclude_gaps ∧ (p.1 = '-' ∨ p.2 = '-') then
      countLoop exclude_gaps rest acc
    else
      countLoop exclude_gaps rest (acc.1 + (if p.1 ≠ p.2 then 1 else 0), acc.2 + 1)

/-- Embedding of `compute_mutation_rate` (src/mut_calc/mutation.py).
Raising `ValueError("Aligned sequences must be of equal length")` becomes
`Except.error` with that message; otherwise the triple
`(mutations, comparable, rate)` is returned, with
`rate = mutations / comparable` when `comparable > 0` and `0.0` otherwise. -/
def compute_mutation_rate (ref_seq target_seq : List Char)
    (exclude_gaps : Bool) : Except String (Nat × Nat × ℚ) :=
  if ref_seq.length ≠ target_seq.length then
    Except.error "Aligned sequences must be of equal length"
  else
    let mc := countLoop exclude_gaps (ref_seq.zip target_seq) (0, 0)
    let rate : ℚ := if 0 < mc.2 then (mc.1 : ℚ) / (mc.2 : ℚ) else 0
    Except.ok (mc.1, mc.2, rate)

/-- Python's `str.strip` whitespace set (ASCII part): space, tab, newline,
carriage return, vertical tab, form feed. -/
def isPySpace (c : Char) : Bool :=
  c == ' ' || c == '\t' || c == '\n' || c == '\r' || c == '\x0b' || c == '\x0c'

/-- Python's `str.strip()`: remove leading and trailing whitespace. -/
def pyStrip (l : List Char) : List Char :=
  ((l.dropWhile isPySpace).reverse.dropWhile isPySpace).reverse

/-- Helper for `splitLines`: accumulates the current line (reversed). -/
def splitLinesAux : List Char → List Char → List (List Char)
  | acc, [] => [acc.reverse]
  | acc, c :: rest =>
    if c = '\n' then acc.reverse :: splitLinesAux [] rest
    else splitLinesAux (c :: acc) rest

/-- Split a character stream at `'\n'`, as iterating over a Python text file
yields its lines (the `'\n'` terminators themselves are removed here; the
source immediately strips each line, so this is equivalent). -/
def splitLines (input : List Char) : List (List Char) := splitLinesAux [] input

/-- Python `dict` assignment on an association list: overwrite in place when
the key is present, append otherwise (insertion order preserved). -/
def insertA {α β : Type} [DecidableEq α] : List (α × β) → α → β → List (α × β)
  | [], k, v => [(k, v)]
  | p :: rest, k, v => if p.1 = k then (k, v) :: rest else p :: insertA rest k v

/-- Python `dict` lookup on an association list. -/
def lookupA {α β : Type} [DecidableEq α] : List (α × β) → α → Option β
  | [], _ => none
  | p :: rest, k => if p.1 = k then some p.2 else lookupA rest k

/-- Python `str.upper` restricted to the characters this tool meets
(per-character uppercasing). -/
def upperChars (l : List Char) : List Char := l.map Char.toUpper

/-- Python `line.startswith(">")`. -/
def startsWithGt : List Char → Bool
  | [] => false
  | c :: _ => c = '>'

/-- Loop state of `read_fasta` (src/mut_calc/fasta.py): the header id of the
record being accumulated (`[]` when no header has been seen), its content
lines so far, and the committed mapping. -/
structure FState where
  current_id : List Char
  chunks : List (List Char)
  seqs : List (List Char × List Char)

/-- The flush in `read_fasta`: `if current_id: seqs[current_id] =
"".join(chunks).upper()`.  Used both when a new header is met and at end of
input. -/
def flushState (st : FState) : List (List Char × List Char) :=
  if st.current_id = [] then st.seqs
  else insertA st.seqs st.current_id (upperChars st.chunks.flatten)

/-- One iteration of the `for raw in f` loop of `read_fasta`: strip the line,
skip it when blank, on a header flush the previous record and start a new one
keyed by the stripped text after `'>'`, otherwise append a content chunk. -/
def stepLine (st : FState) (raw : List Char) : FState :=
  let line := pyStrip raw
  if line = [] then st
  else if startsWithGt line then
    { current_id := pyStrip (line.drop 1), chunks := [], seqs := flushState st }
  else
    { st with chunks := st.chunks ++ [line] }

/-- Embedding of the parsing loop of `read_fasta` (src/mut_calc/fasta.py),
taking the file's lines: fold `stepLine` from the empty state, then perform
the final flush. -/
def read_fasta_lines (lines : List (List Char)) : List (List Char × List Char) :=
  flushState (lines.foldl stepLine { current_id := [], chunks := [], seqs := [] })

/-- Embedding of `read_fasta` on the character stream of the file. -/
def read_fasta (input : List Char) : List (List Char × List Char) :=
  read_fasta_lines (splitLines input)

/-- State for `records`: like `FState` but collecting every committed record
in order instead of building the mapping. -/
structure RState where
  current_id : List Char
  chunks : List (List Char)
  recs : List (List Char × List Char)

/-- Record-trace analogue of `flushState`: append the committed record. -/
def flushRecs (st : RState) : List (List Char × List Char) :=
  if st.current_id = [] then st.recs
  else st.recs ++ [(st.current_id, upperChars st.chunks.flatten)]

/-- Record-trace analogue of `stepLine`. -/
def stepRec (st : RState) (raw : List Char) : RState :=
  let line := pyStrip raw
  if line = [] then st
  else if startsWithGt line then
    { current_id := pyStrip (line.drop 1), chunks := [], recs := flushRecs st }
  else
    { st with chunks := st.chunks ++ [line] }

/-- The ordered trace of records `read_fasta` commits on the given lines:
each `(identifier, content)` pair in commit order, duplicates kept. -/
def records (lines : List (List Char)) : List (List Char × List Char) :=
  flushRecs (lines.foldl stepRec { current_id := [], chunks := [], recs := [] })

/-- The value of the last record in `rs` whose identifier is `k`, if any. -/
def lastValue {α β : Type} [DecidableEq α] (rs : List (α × β)) (k : α) : Option β :=
  (rs.reverse.find? (fun p => p.1 = k)).map Prod.snd

/-! ## Characterisations of the counting loop -/

theorem countLoop_false_eq (l : List (Char × Char)) :
    ∀ m c : Nat, countLoop false l (m, c) =
      (m + l.countP (fun p => p.1 ≠ p.2), c + l.length) := by
  induction l with
  | nil => intro m c; simp [countLoop]
  | cons p rest ih =>
    intro m c
    by_cases hp : p.1 = p.2 <;>
      simp [countLoop, hp, ih, List.countP_cons, Prod.ext_iff] <;> omega

theorem countLoop_true_eq (l : List (Char × Char)) :
    ∀ m c : Nat, countLoop true l (m, c) =
      (m + l.countP (fun p => p.1 ≠ '-' ∧ p.2 ≠ '-' ∧ p.1 ≠ p.2),
       c + l.countP (fun p => p.1 ≠ '-' ∧ p.2 ≠ '-')) := by
  induction l with
  | nil => intro m c; simp [countLoop]
  | cons p rest ih =>
    intro m c
    by_cases h1 : p.1 = '-' <;> by_cases h2 : p.2 = '-' <;> by_cases hp : p.1 = p.2 <;>
      simp [countLoop, h1, h2, hp, ih, List.countP_cons, Prod.ext_iff] <;> omega

theorem compute_ok_of_length_eq (r t : List Char) (eg : Bool)
    (h : r.length = t.length) :
    compute_mutation_rate r t eg =
      Except.ok ((countLoop eg (r.zip t) (0, 0)).1, (countLoop eg (r.zip t) (0, 0)).2,
        if 0 < (countLoop eg (r.zip t) (0, 0)).2 then
          ((countLoop eg (r.zip t) (0, 0)).1 : ℚ) / ((countLoop eg (r.zip t) (0, 0)).2 : ℚ)
        else 0) := by
  simp [compute_mutation_rate, h]

theorem compute_ok_inv (r t : List Char) (eg : Bool) (m c : Nat) (rate : ℚ)
    (h : compute_mutation_rate r t eg = Except.ok (m, c, rate)) :
    r.length = t.length ∧
      m = (countLoop eg (r.zip t) (0, 0)).1 ∧
      c = (countLoop eg (r.zip t) (0, 0)).2 ∧
      rate = (if 0 < c then (m : ℚ) / (c : ℚ) else 0) := by
  by_cases hl : r.length = t.length
  · rw [compute_ok_of_length_eq r t eg hl] at h
    simp only [Except.ok.injEq, Prod.mk.injEq] at h
    obtain ⟨hm, hc, hr⟩ := h
    subst hm
    subst hc
    exact ⟨hl, rfl, rfl, hr.symm⟩
  · simp [compute_mutation_rate, hl] at h

theorem zip_self_eq {α : Type} (l : List α) : l.zip l = l.map (fun a => (a, a)) := by
  induction l with
  | nil => rfl
  | cons a rest ih => simp [ih]

theorem countP_zip_self_ne (l : List Char) :
    (l.zip l).countP (fun p => p.1 ≠ p.2) = 0 := by
  rw [zip_self_eq]
  induction l with
  | nil => rfl
  | cons a rest ih => simp [List.countP_cons, ih]

theorem countP_zip_self_ne_gaps (l : List Char) :
    (l.zip l).countP (fun p => p.1 ≠ '-' ∧ p.2 ≠ '-' ∧ p.1 ≠ p.2) = 0 := by
  rw [zip_self_eq]
  induction l with
  | nil => rfl
  | cons a rest ih => simp [List.countP_cons, ih]

theorem countP_pair_self_comparable (l : List Char) :
    (l.map (fun a => (a, a))).countP (fun p => p.1 ≠ '-' ∧ p.2 ≠ '-') =
      l.countP (fun c => c ≠ '-') := by
  induction l with
  | nil => rfl
  | cons a rest ih =>
    by_cases h : a = '-' <;> simp [List.countP_cons, h] at ih ⊢ <;> omega

theorem countP_ne_add (l : List Char) :
    l.countP (fun c => c ≠ '-') + l.countP (fun c => c = '-') = l.length := by
  induction l with
  | nil => rfl
  | cons a rest ih =>
    by_cases h : a = '-' <;> simp [List.countP_cons, h] at ih ⊢ <;> omega

theorem countP_zip_self_comparable_add (l : List Char) :
    (l.zip l).countP (fun p => p.1 ≠ '-' ∧ p.2 ≠ '-') +
      l.countP (fun c => c = '-') = l.length := by
  rw [zip_self_eq, countP_pair_self_comparable]
  exact countP_ne_add l

theorem countP_exclude_le (l : List (Char × Char)) :
    l.countP (fun p => p.1 ≠ '-' ∧ p.2 ≠ '-' ∧ p.1 ≠ p.2) ≤
      l.countP (fun p => p.1 ≠ '-' ∧ p.2 ≠ '-') := by
  induction l with
  | nil => exact Nat.le_refl 0
  | cons p rest ih =>
    simp only [List.countP_cons]
    refine Nat.add_le_add ih ?_
    by_cases h1 : p.1 = '-' <;> by_cases h2 : p.2 = '-' <;> by_cases hp : p.1 = p.2 <;>
      simp [h1, h2, hp]

/-! ## Claims about the calculator -/

/-- Claim C1: for equal-length strings over the alphabet {A,C,G,T,-},
`compute_mutation_rate` with `exclude_gaps = False` returns a mutation count
equal to the number of positions where the two strings differ, and a
comparable-position count equal to the full length. -/
theorem mutation_count_all_positions (r t : List Char)
    (hlen : r.length = t.length)
    (_hr : ∀ c ∈ r, c ∈ [ 'A', 'C', 'G', 'T', '-' ])
    (_ht : ∀ c ∈ t, c ∈ [ 'A', 'C', 'G', 'T', '-' ]) :
    ∃ rate : ℚ, compute_mutation_rate r t false =
      Except.ok ((r.zip t).countP (fun p => p.1 ≠ p.2), r.length, rate) := by
  have h := compute_ok_of_length_eq r t false hlen
  rw [countLoop_false_eq] at h
  simp only [Nat.zero_add] at h
  have hz : (r.zip t).length = r.length := by
    rw [List.length_zip, hlen, Nat.min_self]
  rw [hz] at h
  exact ⟨_, h⟩

/-- Claim C2: for equal-length strings over the alphabet {A,C,G,T,-},
`compute_mutation_rate` with `exclude_gaps = True` counts as comparable
exactly the positions where neither string has a gap, and counts as
mutations the comparable positions where the strings differ. -/
theorem mutation_count_exclude_gaps (r t : List Char)
    (hlen : r.length = t.length)
    (_hr : ∀ c ∈ r, c ∈ [ 'A', 'C', 'G', 'T', '-' ])
    (_ht : ∀ c ∈ t, c ∈ [ 'A', 'C', 'G', 'T', '-' ]) :
    ∃ rate : ℚ, compute_mutation_rate r t true =
      Except.ok ((r.zip t).countP (fun p => p.1 ≠ '-' ∧ p.2 ≠ '-' ∧ p.1 ≠ p.2),
        (r.zip t).countP (fun p => p.1 ≠ '-' ∧ p.2 ≠ '-'), rate) := by
  have h := compute_ok_of_length_eq r t true hlen
  rw [countLoop_true_eq] at h
  simp only [Nat.zero_add] at h
  exact ⟨_, h⟩

/-- Claim C3: whenever `compute_mutation_rate` returns a triple, the rate is
the exact (real-valued, non-truncating) quotient `mutations / comparable`
when `comparable > 0`, and exactly `0` when `comparable = 0`. -/
theorem mutation_rate_division (r t : List Char) (eg : Bool) (m c : Nat) (rate : ℚ)
    (h : compute_mutation_rate r t eg = Except.ok (m, c, rate)) :
    (0 < c → rate = (m : ℚ) / (c : ℚ)) ∧ (c = 0 → rate = 0) := by
  obtain ⟨-, -, -, hr⟩ := compute_ok_inv r t eg m c rate h
  subst hr
  constructor
  · intro hc
    simp [hc]
  · intro hc
    simp [hc]

/-- Claim C4 (amended): on strings of different lengths
`compute_mutation_rate` fails, for either flag value, with the error message
"Aligned sequences must be of equal length" — the spec's quoted message
"sequences must be of equal length" is only a proper suffix of it — and no
triple is produced (the embedding returns the error directly, with no state
computed beforehand). -/
theorem mutation_rate_length_error (r t : List Char) (eg : Bool)
    (h : r.length ≠ t.length) :
    compute_mutation_rate r t eg =
      Except.error "Aligned sequences must be of equal length" := by
  simp [compute_mutation_rate, h]

/-- Claim C4, counterexample to the quoted message: the error raised on
mismatched lengths does not carry the exact message
"sequences must be of equal length". -/
theorem mutation_rate_length_error_message_cex :
    compute_mutation_rate [ 'A' ] [] false ≠
      Except.error "sequences must be of equal length" := by decide

/-- Claim C6: comparing any string to itself gives 0 mutations; the
comparable-position count is the length minus the number of gap positions of
the string itself when `exclude_gaps = True`, and the full length otherwise. -/
theorem mutation_rate_self_comparison (r : List Char) (eg : Bool) :
    ∃ rate : ℚ, compute_mutation_rate r r eg =
      Except.ok (0,
        (if eg then r.length - r.countP (fun c => c = '-') else r.length), rate) := by
  have h := compute_ok_of_length_eq r r eg rfl
  cases eg with
  | false =>
    rw [countLoop_false_eq] at h
    simp only [Nat.zero_add] at h
    rw [countP_zip_self_ne] at h
    have hz : (r.zip r).length = r.length := by
      rw [List.length_zip, Nat.min_self]
    rw [hz] at h
    exact ⟨_, h⟩
  | true =>
    rw [countLoop_true_eq] at h
    simp only [Nat.zero_add] at h
    rw [countP_zip_self_ne_gaps] at h
    have hc := countP_zip_self_comparable_add r
    have hcomp : (r.zip r).countP (fun p => p.1 ≠ '-' ∧ p.2 ≠ '-') =
        r.length - r.countP (fun c => c = '-') := by omega
    rw [hcomp] at h
    exact ⟨_, h⟩

/-- Claim C8: every triple returned by `compute_mutation_rate` satisfies
`mutations ≤ comparable`, `comparable ≤ len(reference)` and `rate ∈ [0, 1]`,
with `rate = 0` exactly when `comparable = 0` (the counts are `Nat`, hence
non-negative by typing). -/
theorem mutation_rate_bounds (r t : List Char) (eg : Bool) (m c : Nat) (rate : ℚ)
    (h : compute_mutation_rate r t eg = Except.ok (m, c, rate)) :
    m ≤ c ∧ c ≤ r.length ∧ 0 ≤ rate ∧ rate ≤ 1 ∧ (c = 0 → rate = 0) := by
  obtain ⟨hl, hm, hc, hr⟩ := compute_ok_inv r t eg m c rate h
  have hzle : (r.zip t).length ≤ r.length := by
    rw [List.length_zip]
    exact Nat.min_le_left _ _
  have hmc : m ≤ c := by
    subst hm
    subst hc
    cases eg with
    | false =>
      rw [countLoop_false_eq]
      simp only [Nat.zero_add]
      exact List.countP_le_length _
    | true =>
      rw [countLoop_true_eq]
      simp only [Nat.zero_add]
      exact countP_exclude_le _
  have hcl : c ≤ r.length := by
    subst hc
    cases eg with
    | false =>
      rw [countLoop_false_eq]
      simp only [Nat.zero_add]
      exact hzle
    | true =>
      rw [countLoop_true_eq]
      simp only [Nat.zero_add]
      exact Nat.le_trans (List.countP_le_length _) hzle
  subst hr
  refine ⟨hmc, hcl, ?_, ?_, ?_⟩
  · by_cases h0 : 0 < c
    · simp only [h0, if_true]
      positivity
    · simp [h0]
  · by_cases h0 : 0 < c
    · simp only [h0, if_true]
      rw [div_le_one (by exact_mod_cast h0)]
      exact_mod_cast hmc
    · simp [h0]
  · intro hc0
    simp [hc0]

/-- Claim C9: the per-position comparison is a literal character inequality
with no case normalization and no gap special-casing when
`exclude_gaps = False`: a single position yields one mutation exactly when
the characters differ, so 'a' vs 'A' is a mutation, and a target gap against
a non-gap reference character is a mutation. -/
theorem mutation_comparison_literal :
    (∀ a b : Char, compute_mutation_rate [ a ] [ b ] false =
      Except.ok ((if a = b then 0 else 1), 1, (if a = b then (0 : ℚ) else 1))) ∧
    compute_mutation_rate [ 'a' ] [ 'A' ] false = Except.ok (1, 1, 1) ∧
    compute_mutation_rate [ 'A' ] [ '-' ] false = Except.ok (1, 1, 1) := by
  refine ⟨?_, ?_, ?_⟩
  · intro a b
    by_cases hab : a = b <;> simp [compute_mutation_rate, countLoop, hab]
  · simp [compute_mutation_rate, countLoop]
  · simp [compute_mutation_rate, countLoop]

/-! ## Lemmas about the loader -/

theorem lookupA_insertA {α β : Type} [DecidableEq α] (m : List (α × β)) (k : α)
    (v : β) (k' : α) :
    lookupA (insertA m k v) k' = if k = k' then some v else lookupA m k' := by
  induction m with
  | nil => simp [insertA, lookupA]
  | cons p rest ih =>
    by_cases hpk : p.1 = k
    · subst hpk
      by_cases hk : p.1 = k' <;> simp [insertA, lookupA, hk]
    · by_cases hk : k = k'
      · subst hk
        simp [insertA, lookupA, hpk, ih]
      · simp [insertA, lookupA, hpk, hk, ih]

theorem lastValue_append {α β : Type} [DecidableEq α] (rs : List (α × β)) (k : α)
    (v : β) (k' : α) :
    lastValue (rs ++ [(k, v)]) k' = if k = k' then some v else lastValue rs k' := by
  unfold lastValue
  rw [List.reverse_append]
  by_cases h : k = k' <;> simp [h]

theorem flush_lookup_rel (stF : FState) (stR : RState)
    (hid : stF.current_id = stR.current_id) (hch : stF.chunks = stR.chunks)
    (h : ∀ k, lookupA stF.seqs k = lastValue stR.recs k) :
    ∀ k, lookupA (flushState stF) k = lastValue (flushRecs stR) k := by
  intro k
  unfold flushState flushRecs
  rw [← hid, ← hch]
  by_cases hc : stF.current_id = []
  · simp [hc, h]
  · simp only [hc, if_neg, lookupA_insertA, lastValue_append, if_false]
    by_cases hk : stF.current_id = k <;> simp [hk, h k]

theorem step_rel (stF : FState) (stR : RState) (raw : List Char)
    (hid : stF.current_id = stR.current_id) (hch : stF.chunks = stR.chunks)
    (h : ∀ k, lookupA stF.seqs k = lastValue stR.recs k) :
    (stepLine stF raw).current_id = (stepRec stR raw).current_id ∧
    (stepLine stF raw).chunks = (stepRec stR raw).chunks ∧
    ∀ k, lookupA (stepLine stF raw).seqs k = lastValue (stepRec stR raw).recs k := by
  simp only [stepLine, stepRec]
  by_cases hb : pyStrip raw = []
  · rw [if_pos hb, if_pos hb]
    exact ⟨hid, hch, h⟩
  · rw [if_neg hb, if_neg hb]
    by_cases hgt : startsWithGt (pyStrip raw) = true
    · rw [if_pos hgt, if_pos hgt]
      exact ⟨rfl, rfl, flush_lookup_rel stF stR hid hch h⟩
    · rw [if_neg hgt, if_neg hgt]
      exact ⟨hid, by rw [hch], h⟩

theorem fold_lookup_rel (lines : List (List Char)) :
    ∀ (stF : FState) (stR : RState),
      stF.current_id = stR.current_id → stF.chunks = stR.chunks →
      (∀ k, lookupA stF.seqs k = lastValue stR.recs k) →
      (lines.foldl stepLine stF).current_id = (lines.foldl stepRec stR).current_id ∧
      (lines.foldl stepLine stF).chunks = (lines.foldl stepRec stR).chunks ∧
      ∀ k, lookupA ((lines.foldl stepLine stF)).seqs k =
        lastValue ((lines.foldl stepRec stR)).recs k := by
  induction lines with
  | nil =>
    intro stF stR hid hch h
    exact ⟨hid, hch, h⟩
  | cons raw rest ih =>
    intro stF stR hid hch h
    simp only [List.foldl_cons]
    obtain ⟨hid', hch', h'⟩ := step_rel stF stR raw hid hch h
    exact ih _ _ hid' hch' h'

theorem read_fasta_lines_lookup (lines : List (List Char)) (k : List Char) :
    lookupA (read_fasta_lines lines) k = lastValue (records lines) k := by
  obtain ⟨hid, hch, h⟩ :=
    fold_lookup_rel lines ⟨[], [], []⟩ ⟨[], [], []⟩ rfl rfl (fun _ => rfl)
  exact flush_lookup_rel _ _ hid hch h k

theorem mem_insertA {α β : Type} [DecidableEq α] {m : List (α × β)} {k : α} {v : β}
    {q : α × β} (h : q ∈ insertA m k v) : q ∈ m ∨ q = (k, v) := by
  induction m with
  | nil =>
    simp only [insertA, List.mem_singleton] at h
    exact Or.inr h
  | cons p rest ih =>
    by_cases hpk : p.1 = k
    · simp only [insertA, hpk, if_pos, List.mem_cons] at h
      rcases h with h | h
      · exact Or.inr h
      · exact Or.inl (List.mem_cons_of_mem p h)
    · simp only [insertA, hpk, if_neg, if_false, List.mem_cons] at h
      rcases h with h | h
      · exact Or.inl (by simp [h])
      · rcases ih h with h' | h'
        · exact Or.inl (List.mem_cons_of_mem p h')
        · exact Or.inr h'

theorem flush_keys_nonempty (st : FState) (h : ∀ q ∈ st.seqs, q.1 ≠ [])
    (q : List Char × List Char) (hq : q ∈ flushState st) : q.1 ≠ [] := by
  unfold flushState at hq
  by_cases hc : st.current_id = []
  · rw [if_pos hc] at hq
    exact h q hq
  · rw [if_neg hc] at hq
    rcases mem_insertA hq with h' | h'
    · exact h q h'
    · rw [h']
      exact hc

theorem fold_keys_nonempty (lines : List (List Char)) :
    ∀ st : FState, (∀ q ∈ st.seqs, q.1 ≠ []) →
      ∀ q ∈ (lines.foldl stepLine st).seqs, q.1 ≠ [] := by
  induction lines with
  | nil =>
    intro st h
    exact h
  | cons raw rest ih =>
    intro st h
    simp only [List.foldl_cons]
    apply ih
    unfold stepLine
    by_cases hb : pyStrip raw = []
    · simp only [hb, if_true, if_pos]
      exact h
    · by_cases hgt : startsWithGt (pyStrip raw) = true
      · simp only [hb, hgt, if_false, if_true, if_neg, if_pos]
        exact flush_keys_nonempty st h
      · simp only [hb, hgt, if_false, if_neg]
        exact h

/-! ## Claims about the loader -/

/-- Claim C5, counterexample: the single-record input `">A\nACGT\nAC\n"` does
not parse to the mapping `{"A": "ACGGAC"}` — concatenating the content lines
`"ACGT"` and `"AC"` gives `"ACGTAC"`, not `"ACGGAC"`. -/
theorem read_fasta_first_example_cex :
    read_fasta ">A\nACGT\nAC\n".data ≠ [("A".data, "ACGGAC".data)] := by decide

/-- Claim C5 (amended): the loader parses `">A\nACGT\nAC\n"` to
`{"A": "ACGTAC"}` (content lines concatenated in order, line breaks ignored,
uppercased), and parses `">seq1\nACGT\n-A\n>seq2\nAAAA"` to
`{"seq1": "ACGT-A", "seq2": "AAAA"}`. -/
theorem read_fasta_examples :
    read_fasta ">A\nACGT\nAC\n".data = [("A".data, "ACGTAC".data)] ∧
    read_fasta ">seq1\nACGT\n-A\n>seq2\nAAAA".data =
      [("seq1".data, "ACGT-A".data), ("seq2".data, "AAAA".data)] :=
  ⟨by decide, by decide⟩

/-- Claim C7: when an input holds two or more records whose headers trim to
the same identifier, the collection built by `read_fasta` maps that
identifier to the content of the last such record (the lookup equals the
value of the last record of the commit trace carrying that identifier). -/
theorem read_fasta_duplicate_last_wins (input : List Char) (k : List Char)
    (_hdup : 2 ≤ ((records (splitLines input)).filter (fun p => p.1 = k)).length) :
    lookupA (read_fasta input) k = lastValue (records (splitLines input)) k :=
  read_fasta_lines_lookup (splitLines input) k

/-- Claim C10: every key of the collection returned by `read_fasta` is a
non-empty string; moreover a record whose header trims to the empty
identifier (a line that is just `'>'`) is silently dropped: its content is
accumulated but never committed, as the concrete second conjunct shows. -/
theorem read_fasta_keys_nonempty :
    (∀ (input : List Char) (q : List Char × List Char),
        q ∈ read_fasta input → q.1 ≠ []) ∧
    read_fasta ">\nAAAA\n>B\nCC".data = [("B".data, "CC".data)] := by
  constructor
  · intro input q hq
    unfold read_fasta read_fasta_lines at hq
    refine flush_keys_nonempty _ ?_ q hq
    exact fold_keys_nonempty (splitLines input) ⟨[], [], []⟩ (by intro q hq; cases hq)
  · decide

/-! ## Witnesses: the hypothesis-bearing claim theorems applied at concrete inputs -/

theorem mutation_count_all_positions_ex :
    ([ 'A', 'C', 'G', 'T' ] : List Char).length = ([ 'A', 'G', 'G', 'T' ] : List Char).length ∧
    ∃ rate : ℚ, compute_mutation_rate [ 'A', 'C', 'G', 'T' ] [ 'A', 'G', 'G', 'T' ] false =
      Except.ok ((([ 'A', 'C', 'G', 'T' ] : List Char).zip [ 'A', 'G', 'G', 'T' ]).countP
          (fun p => p.1 ≠ p.2),
        ([ 'A', 'C', 'G', 'T' ] : List Char).length, rate) :=
  ⟨by decide, mutation_count_all_positions [ 'A', 'C', 'G', 'T' ] [ 'A', 'G', 'G', 'T' ]
    (by decide) (by decide) (by decide)⟩

theorem mutation_count_exclude_gaps_ex :
    ([ 'A', 'C', '-', 'T' ] : List Char).length = ([ 'A', 'G', '-', 'T' ] : List Char).length ∧
    ∃ rate : ℚ, compute_mutation_rate [ 'A', 'C', '-', 'T' ] [ 'A', 'G', '-', 'T' ] true =
      Except.ok ((([ 'A', 'C', '-', 'T' ] : List Char).zip [ 'A', 'G', '-', 'T' ]).countP
          (fun p => p.1 ≠ '-' ∧ p.2 ≠ '-' ∧ p.1 ≠ p.2),
        (([ 'A', 'C', '-', 'T' ] : List Char).zip [ 'A', 'G', '-', 'T' ]).countP
          (fun p => p.1 ≠ '-' ∧ p.2 ≠ '-'), rate) :=
  ⟨by decide, mutation_count_exclude_gaps [ 'A', 'C', '-', 'T' ] [ 'A', 'G', '-', 'T' ]
    (by decide) (by decide) (by decide)⟩

theorem mutation_rate_division_ex :
    compute_mutation_rate [ '-', '-', '-' ] [ '-', '-', '-' ] true =
      Except.ok (0, 0, (0 : ℚ)) ∧
    (((0 : Nat) < 0 → (0 : ℚ) = ((0 : Nat) : ℚ) / ((0 : Nat) : ℚ)) ∧
      ((0 : Nat) = 0 → (0 : ℚ) = 0)) :=
  ⟨by decide,
    mutation_rate_division [ '-', '-', '-' ] [ '-', '-', '-' ] true 0 0 0 (by decide)⟩

theorem mutation_rate_length_error_ex :
    ([ 'A' ] : List Char).length ≠ ([] : List Char).length ∧
    compute_mutation_rate [ 'A' ] [] false =
      Except.error "Aligned sequences must be of equal length" :=
  ⟨by decide, mutation_rate_length_error [ 'A' ] [] false (by decide)⟩

theorem mutation_rate_bounds_ex :
    compute_mutation_rate [ '-', '-', '-' ] [ '-', '-', '-' ] true =
      Except.ok (0, 0, (0 : ℚ)) ∧
    ((0 : Nat) ≤ 0 ∧ 0 ≤ ([ '-', '-', '-' ] : List Char).length ∧ 0 ≤ (0 : ℚ) ∧
      (0 : ℚ) ≤ 1 ∧ ((0 : Nat) = 0 → (0 : ℚ) = 0)) :=
  ⟨by decide,
    mutation_rate_bounds [ '-', '-', '-' ] [ '-', '-', '-' ] true 0 0 0 (by decide)⟩

theorem read_fasta_duplicate_last_wins_ex :
    2 ≤ ((records (splitLines ">X\nAA\n>X\nCC".data)).filter
        (fun p => p.1 = "X".data)).length ∧
    lookupA (read_fasta ">X\nAA\n>X\nCC".data) "X".data =
      lastValue (records (splitLines ">X\nAA\n>X\nCC".data)) "X".data :=
  ⟨by decide, read_fasta_duplicate_last_wins ">X\nAA\n>X\nCC".data "X".data (by decide)⟩

theorem read_fasta_keys_nonempty_ex :
    (("B".data, "CC".data) ∈ read_fasta ">\nAAAA\n>B\nCC".data) ∧
    ("B".data, "CC".data).1 ≠ ([] : List Char) :=
  ⟨by decide, read_fasta_keys_nonempty.1 ">\nAAAA\n>B\nCC".data ("B".data, "CC".data)
    (by decide)⟩

end MutCalc
